import Mathlib

/-!
Verification of the ZYLO Document Reading & Pronunciation Alignment Engine.

Shallow embedding of the sentence segmenter, read-aloud scheduler, word
alignment, scoring tiers and WAV audio pipeline found in
`FRONTEND/src/components/DocumentReader.js` and
`FRONTEND/src/components/SentencePractice.js`.  JavaScript numbers are
modelled as rationals, JavaScript strings as lists of characters.
-/

attribute [local semireducible] Rat.mul Rat.add Rat.sub Rat.inv Rat.ofScientific

namespace Zylo

/-- JavaScript strings are modelled as lists of characters. -/
abbrev Str := List Char

/-- The sentence-terminal characters of the regex class `[.!?]`. -/
def isTerm (c : Char) : Bool := c = '.' || c = '!' || c = '?'

/-- Whitespace predicate used to model `String.prototype.trim`. -/
def isWs (c : Char) : Bool := c.isWhitespace

/-- Model of JavaScript `s.trim()`: strip whitespace from both ends. -/
def jsTrim (cs : Str) : Str :=
  ((cs.dropWhile isWs).reverse.dropWhile isWs).reverse

/-- Model of the regex test `/[.!?]$/.test(s)`: the string is non-empty and its
last character is terminal punctuation. -/
def endsTerm (cs : Str) : Bool :=
  match cs.getLast? with
  | some c => isTerm c
  | none => false

/-- Worker for `splitRuns`: scans the characters, accumulating the current
piece (in reverse) in `cur`; `inTerm` records whether the piece is currently
inside its trailing run of terminal punctuation. -/
def splitRunsGo (cur : Str) (inTerm : Bool) : Str → List Str
  | [] => if cur = [] then [] else [cur.reverse]
  | c :: cs =>
    if isTerm c then
      if cur = [] then splitRunsGo [] false cs
      else splitRunsGo (c :: cur) true cs
    else
      if inTerm then cur.reverse :: splitRunsGo [c] false cs
      else splitRunsGo (c :: cur) false cs

/-- Model of `s.match(/[^.!?]+[.!?]+|[^.!?]+$/g)`: the list of matches, i.e.
maximal blocks of non-terminal characters together with their trailing run of
terminal punctuation, plus a final block of non-terminal characters if the
string does not end with punctuation.  Unmatched positions (leading or
separating runs of terminal punctuation) are skipped. -/
def splitRuns (cs : Str) : List Str := splitRunsGo [] false cs

/-- Model of `s.match(...) || [s]`: `String.prototype.match` with the `g` flag
returns `null` when there is no match, in which case the code falls back to
the one-element array holding the whole string. -/
def jsMatchPieces (cs : Str) : List Str :=
  if splitRuns cs = [] then [cs] else splitRuns cs

/-- ASCII alphanumeric characters, the regex class `[0-9a-zA-Z]`. -/
def isAlnumAscii (c : Char) : Bool :=
  (('0' ≤ c && c ≤ '9') || ('a' ≤ c && c ≤ 'z') || ('A' ≤ c && c ≤ 'Z'))

/-- Tail of the serial-marker pattern: one or two alphanumeric characters
followed by `.` or `)`. -/
def serialTail (cs : Str) : Bool :=
  match cs with
  | [a, t] => isAlnumAscii a && (t = '.' || t = ')')
  | [a, b, t] => isAlnumAscii a && isAlnumAscii b && (t = '.' || t = ')')
  | _ => false

/-- Model of the regex test for `/^\(?[0-9a-zA-Z]{1,2}(\.|\))$/`: an optional
opening parenthesis, one or two alphanumerics, then `.` or `)`. -/
def serialPattern (cs : Str) : Bool :=
  match cs with
  | '(' :: rest => serialTail rest
  | _ => serialTail cs

/-- Insert a rational into an ascending-sorted list (auxiliary for
`sortAsc`). -/
def insertAsc (x : ℚ) : List ℚ → List ℚ
  | [] => [x]
  | y :: ys => if x ≤ y then x :: y :: ys else y :: insertAsc x ys

/-- Model of `array.sort((a, b) => a - b)` on numbers: the ascending-sorted
rearrangement (insertion sort; numeric sorting has a unique result). -/
def sortAsc (l : List ℚ) : List ℚ := l.foldr insertAsc []

/-- One positioned text fragment as delivered by the PDF renderer: its string,
and the two entries of `item.transform` that the code reads, `transform[3]`
(signed glyph height) and `transform[5]` (baseline Y coordinate). -/
structure Item where
  str : Str
  transform3 : ℚ
  transform5 : ℚ
deriving DecidableEq

/-- The value `Math.abs(item.transform[3])`, the fragment height used by the
classifier. -/
def itemHeight (it : Item) : ℚ := |it.transform3|

/-- The page-level thresholds computed once per page in
`onPageLoadSuccess`. -/
structure PageCtx where
  footerThreshold : ℚ
  headerThreshold : ℚ
  headingThreshold : ℚ
deriving DecidableEq

/-- Threshold computation of `onPageLoadSuccess`: footer and header bands are
the bottom and top 10 percent of the page; the heading threshold is 1.3 times
`heights[Math.floor(heights.length / 2)] || 12`, the middle element of the
ascending-sorted heights with a fallback of 12 when that element is falsy. -/
def mkPageCtx (pageHeight : ℚ) (items : List Item) : PageCtx :=
  let heights := sortAsc (items.map itemHeight)
  let m := heights.getD (heights.length / 2) 0
  let medianHeight : ℚ := if m = 0 then 12 else m
  { footerThreshold := pageHeight * (1 / 10)
    headerThreshold := pageHeight * (9 / 10)
    headingThreshold := medianHeight * (13 / 10) }

/-- Condition `isHeading`: the fragment height exceeds the heading threshold. -/
def isHeading (ctx : PageCtx) (it : Item) : Bool :=
  decide (ctx.headingThreshold < itemHeight it)

/-- Condition `isSerial`: the trimmed fragment text matches the serial-marker regex. -/
def isSerial (it : Item) : Bool := serialPattern (jsTrim it.str)

/-- Condition `isHeaderOrFooter`: the baseline Y falls in the footer or header band. -/
def isHeaderOrFooter (ctx : PageCtx) (it : Item) : Bool :=
  decide (it.transform5 < ctx.footerThreshold) ||
    decide (ctx.headerThreshold < it.transform5)

/-- The flag `isMetadata` as computed per fragment by the layout token classifier. -/
def classifyMeta (ctx : PageCtx) (it : Item) : Bool :=
  isHeading ctx it || isSerial it || isHeaderOrFooter ctx it

/-- A segmented sentence record `{ text, isMetadata, itemIndices }`. -/
structure Sentence where
  text : Str
  isMetadata : Bool
  itemIndices : List Nat
deriving DecidableEq

/-- The mutable loop state of the segmentation pass: the emitted sentences,
the accumulated body text `fullText`, and its source indices. -/
structure SegState where
  allSentences : List Sentence
  fullText : Str
  currentItemIndices : List Nat
deriving DecidableEq

/-- Flushing the accumulator on a metadata fragment or at end of stream:
split the accumulated text into pieces, emit each piece with a non-empty trim
as a non-metadata sentence carrying the accumulator's source indices. -/
def accSentences (fullText : Str) (idxs : List Nat) : List Sentence :=
  (jsMatchPieces fullText).filterMap fun s =>
    if jsTrim s = [] then none else some ⟨jsTrim s, false, idxs⟩

/-- One iteration of the `items.forEach((item, idx) => ...)` segmentation
loop of `onPageLoadSuccess`. -/
def processItem (ctx : PageCtx) (st : SegState) (idx : Nat) (it : Item) :
    SegState :=
  if it.str = [] then st
  else if classifyMeta ctx it then
    let st1 :=
      if jsTrim st.fullText = [] then st
      else { allSentences :=
               st.allSentences ++ accSentences st.fullText st.currentItemIndices
             fullText := []
             currentItemIndices := [] }
    { st1 with
      allSentences := st1.allSentences ++ [⟨jsTrim it.str, true, [idx]⟩] }
  else
    let ft := st.fullText ++ it.str ++ [' ']
    let idxs := st.currentItemIndices ++ [idx]
    if it.str.any isTerm then
      let raw := jsMatchPieces ft
      if 1 < raw.length || (raw.length = 1 && endsTerm (jsTrim ft)) then
        { allSentences := st.allSentences ++ [⟨jsTrim ft, false, idxs⟩]
          fullText := []
          currentItemIndices := [] }
      else { st with fullText := ft, currentItemIndices := idxs }
    else { st with fullText := ft, currentItemIndices := idxs }

/-- The segmentation loop over the remaining items, with `idx` the index of
the first remaining item. -/
def segLoop (ctx : PageCtx) : List Item → Nat → SegState → SegState
  | [], _, st => st
  | it :: rest, idx, st => segLoop ctx rest (idx + 1) (processItem ctx st idx it)

/-- The end-of-stream flush of `onPageLoadSuccess`. -/
def finishSeg (st : SegState) : List Sentence :=
  if jsTrim st.fullText = [] then st.allSentences
  else st.allSentences ++ accSentences st.fullText st.currentItemIndices

/-- The sentence list produced by `onPageLoadSuccess` from the page height
and the positioned text fragments of one page (empty pages produce no
sentences, matching the early return on `items.length === 0`). -/
def onPageLoadSuccess (pageHeight : ℚ) (items : List Item) : List Sentence :=
  if items = [] then []
  else finishSeg (segLoop (mkPageCtx pageHeight items) items 0 ⟨[], [], []⟩)

/-! ### Read-aloud scheduler -/

/-- The reading cursor: the active sentence index and whether playback is
active (`parentIsReading`). -/
structure SchedState where
  activeSentenceIndex : Nat
  isPlaying : Bool
deriving DecidableEq

/-- The `utterance.onend` handler: advance the active index by one, but only
when the current index is strictly below the last index.  Nothing else is
mutated; in particular the playing flag is untouched. -/
def utteranceOnEnd (ss : List Sentence) (st : SchedState) : SchedState :=
  if st.activeSentenceIndex < ss.length - 1 then
    { st with activeSentenceIndex := st.activeSentenceIndex + 1 }
  else st

/-- An observable call into the speech-synthesis engine. -/
inductive SpeechAct where
  | cancel : SpeechAct
  | speak (text : Str) : SpeechAct
deriving DecidableEq

/-- Result of one run of the reading effect: the updated cursor and the
ordered calls made into the speech-synthesis engine. -/
structure EffectResult where
  state : SchedState
  acts : List SpeechAct
deriving DecidableEq

/-- Fuelled version of the metadata-skipping `while` loop
`while (nextIdx < localSentences.length && localSentences[nextIdx].isMetadata)
nextIdx++`. -/
def nextNonMetaGo (ss : List Sentence) : Nat → Nat → Nat
  | 0, j => j
  | fuel + 1, j =>
    if h : j < ss.length then
      if (ss.get ⟨j, h⟩).isMetadata then nextNonMetaGo ss fuel (j + 1) else j
    else j

/-- The metadata-skipping loop, with enough fuel to scan the whole list. -/
def nextNonMeta (ss : List Sentence) (j : Nat) : Nat :=
  nextNonMetaGo ss ss.length j

/-- One run of the reading effect of `DocumentReader`: given the sentences and
the cursor, it either returns early, advances past a run of metadata
sentences, cancels, or cancels-then-speaks the active sentence. -/
def readingEffect (ss : List Sentence) (st : SchedState) : EffectResult :=
  if st.isPlaying && decide (0 < ss.length) then
    if h : st.activeSentenceIndex < ss.length then
      let sentenceObj := ss.get ⟨st.activeSentenceIndex, h⟩
      if sentenceObj.isMetadata then
        let nextIdx := nextNonMeta ss (st.activeSentenceIndex + 1)
        if nextIdx < ss.length then
          ⟨{ st with activeSentenceIndex := nextIdx }, []⟩
        else ⟨st, [.cancel]⟩
      else ⟨st, [.cancel, .speak sentenceObj.text]⟩
    else ⟨st, []⟩
  else ⟨st, [.cancel]⟩

/-- The texts passed to `speechSynthesis.speak` within a list of speech
engine calls. -/
def spokenTexts (acts : List SpeechAct) : List Str :=
  acts.filterMap fun a =>
    match a with
    | .speak t => some t
    | _ => none

/-! ### Word alignment (SentencePractice.getWordMatchMap) -/

/-- Character-wise `String.prototype.toLowerCase` (ASCII-faithful). -/
def jsToLower (cs : Str) : Str := cs.map Char.toLower

/-- Model of JavaScript `s.split(" ")`: split on every single space character,
keeping empty pieces; the result is never empty. -/
def splitOnSpace (cs : Str) : List Str :=
  cs.foldr
    (fun c acc =>
      if c = ' ' then [] :: acc
      else
        match acc with
        | h :: t => (c :: h) :: t
        | [] => [[c]])
    [[]]

/-- One entry of the word-correctness map. -/
structure WordMark where
  word : Str
  correct : Bool
deriving DecidableEq

/-- Function `getWordMatchMap(expected, spoken)` from `SentencePractice.js`: lower-case
both strings, split them on single spaces (`spoken` may be absent, giving an
empty word list), and mark word `i` correct iff `spk[i] === word`. -/
def getWordMatchMap (expected : Str) (spoken : Option Str) : List WordMark :=
  let exp := splitOnSpace (jsToLower expected)
  let spk := (spoken.map fun s => splitOnSpace (jsToLower s)).getD []
  exp.enum.map fun p => ⟨p.2, decide (spk.get? p.1 = some p.2)⟩

/-- Spec-side normalization ("lower-casing and stripping punctuation, then
split on whitespace"): keep alphanumerics, underscores and whitespace, then
split into maximal whitespace-free words. -/
def specNormalizeWords (cs : Str) : List Str :=
  ((jsToLower cs).filter fun c => c.isAlphanum || c = '_' || c.isWhitespace)
    |>.foldr
      (fun c acc =>
        if c.isWhitespace then [] :: acc
        else
          match acc with
          | h :: t => (c :: h) :: t
          | [] => [[c]])
      [[]]
    |>.filter (· ≠ [])

/-- Spec-side positional word correctness: word `i` of the normalized
expected text is correct iff it equals word `i` of the normalized spoken
text. -/
def specPositionalMarks (expected spoken : Str) : List Bool :=
  (specNormalizeWords expected).enum.map fun p =>
    decide ((specNormalizeWords spoken).get? p.1 = some p.2)

/-! ### Scoring tiers (SentencePractice.getEncouragement) -/

/-- An apostrophe, spelled via its code point. -/
def apos : String := String.singleton (Char.ofNat 39)

/-- The fixed message of the Excellent tier. -/
def excellentMsg : String :=
  "Great job! Your pronunciation was clear and confident 🎉"

/-- The fixed message of the Close tier. -/
def closeMsg : String :=
  "Nice effort — you" ++ apos ++ "re very close! Try reading a little slower 🌟"

/-- The fixed message of the NeedsWork tier. -/
def needsWorkMsg : String :=
  "Good try! Let" ++ apos ++ "s practice again — focus on the highlighted words 💪"

/-- Function `getEncouragement(score)` from `SentencePractice.js`. -/
def getEncouragement (score : ℚ) : String :=
  if 85 / 100 ≤ score then excellentMsg
  else if 65 / 100 ≤ score then closeMsg
  else needsWorkMsg

/-- The three verdict tiers of the specification. -/
inductive VerdictTier where
  | Excellent : VerdictTier
  | Close : VerdictTier
  | NeedsWork : VerdictTier
deriving DecidableEq

/-- The tier assigned to a score, following the branch structure of
`getEncouragement`. -/
def verdictTier (score : ℚ) : VerdictTier :=
  if 85 / 100 ≤ score then .Excellent
  else if 65 / 100 ≤ score then .Close
  else .NeedsWork

/-- The fixed message carried by each verdict tier. -/
def tierMessage : VerdictTier → String
  | .Excellent => excellentMsg
  | .Close => closeMsg
  | .NeedsWork => needsWorkMsg

/-! ### Audio capture pipeline (convertToWav / encodeWav) -/

/-- Truncation toward zero, the integer conversion performed by
`DataView.setInt16` on a finite number. -/
def ratTrunc (q : ℚ) : ℤ := if q < 0 then ⌈q⌉ else ⌊q⌋

/-- The per-sample quantization of `encodeWav`:
`s = Math.max(-1, Math.min(1, samples[i]))` followed by
`s < 0 ? s * 0x8000 : s * 0x7FFF`, truncated to an integer by
`setInt16`. -/
def quantizePCM (sample : ℚ) : ℤ :=
  let s := max (-1) (min 1 sample)
  if s < 0 then ratTrunc (s * 32768) else ratTrunc (s * 32767)

/-- A 16-bit unsigned little-endian write (`setUint16(off, v, true)`). -/
def u16le (v : ℕ) : List ℕ := [v % 256, v / 256 % 256]

/-- A 32-bit unsigned little-endian write (`setUint32(off, v, true)`). -/
def u32le (v : ℕ) : List ℕ :=
  [v % 256, v / 256 % 256, v / 65536 % 256, v / 16777216 % 256]

/-- A 16-bit signed little-endian write (`setInt16(off, v, true)`): the two
bytes of the two's-complement representation of `v`. -/
def i16le (v : ℤ) : List ℕ := u16le (v % 65536).toNat

/-- The `writeString` helper: the ASCII bytes of a marker string. -/
def writeString (s : String) : List ℕ := s.data.map Char.toNat

/-- Function `encodeWav(samples, sampleRate)`: the byte contents of the produced
`ArrayBuffer` — a 44-byte RIFF/WAVE header (PCM format tag 1, one channel,
16 bits per sample, data length `samples.length * 2`) followed by the
quantized samples. -/
def encodeWav (samples : List ℚ) (sampleRate : ℕ) : List ℕ :=
  writeString "RIFF" ++ u32le (36 + samples.length * 2) ++
    writeString "WAVE" ++ writeString "fmt " ++ u32le 16 ++
    u16le 1 ++ u16le 1 ++ u32le sampleRate ++ u32le (sampleRate * 2) ++
    u16le 2 ++ u16le 16 ++ writeString "data" ++
    u32le (samples.length * 2) ++
    samples.flatMap fun s => i16le (quantizePCM s)

/-- Function `convertToWav(blob)`: the captured audio is decoded at a fixed 16000 Hz
in an `AudioContext({ sampleRate: 16000 })`, channel 0 is taken, and the
resulting per-sample data — whatever the sample rate or channel count of the
input recording was — is encoded by `encodeWav(pcmData, 16000)`. -/
def convertToWav (pcmData : List ℚ) : List ℕ := encodeWav pcmData 16000

/-- Read back a little-endian 16-bit field at a byte offset. -/
def readU16le (bytes : List ℕ) (off : ℕ) : ℕ :=
  match bytes.drop off with
  | b0 :: b1 :: _ => b0 + 256 * b1
  | [b0] => b0
  | [] => 0

/-- Read back a little-endian 32-bit field at a byte offset. -/
def readU32le (bytes : List ℕ) (off : ℕ) : ℕ :=
  readU16le bytes off + 65536 * readU16le bytes (off + 2)

/-! ### The recorder stop handler (startRecording, recorder.onstop) -/

/-- The audio payloads the stop handler can forward to `onPractice`. -/
inductive Blob where
  | wav (bytes : List ℕ) : Blob
  | webm (chunks : List (List ℕ)) : Blob
deriving DecidableEq

/-- Observable actions of the `recorder.onstop` handler. -/
inductive StopAction where
  | forward (blob : Blob) : StopAction
  | stopTracks : StopAction
deriving DecidableEq

/-- The `recorder.onstop` handler: build the WebM blob from the captured
chunks, try the WAV conversion (whose only failable step is
`decodeAudioData`, modelled by the `Except` argument carrying the decoded
samples on success) and forward the result; on failure forward the original
WebM blob instead; finally stop every track of the microphone stream. -/
def recorderOnStop (chunks : List (List ℕ))
    (decoded : Except Unit (List ℚ)) : List StopAction :=
  let webmBlob := Blob.webm chunks
  match decoded with
  | .ok pcmData => [.forward (.wav (convertToWav pcmData)), .stopTracks]
  | .error _ => [.forward webmBlob, .stopTracks]

/-! ### Auxiliary definitions for the segmenter proofs -/

/-- Shape invariant of the accumulator text: after dropping any leading run
of terminal punctuation no terminal punctuation remains, i.e. the text is
(terminators)(non-terminators). -/
def accOk (cs : Str) : Bool :=
  (cs.dropWhile isTerm).all fun c => ! isTerm c

/-- Two sentences have disjoint source-fragment index lists. -/
def disjIdx (a b : Sentence) : Prop := ∀ x ∈ a.itemIndices, x ∉ b.itemIndices

/-- Invariant of the segmentation loop state after consuming the first `n`
items: all emitted sentences carry non-empty, strictly increasing index
lists of indices below `n`, pairwise disjoint and disjoint from the
accumulator; the accumulator indices are strictly increasing and below `n`,
they are empty only when the accumulated text is, and the accumulated text
has the `accOk` shape. -/
structure SegInv (n : Nat) (st : SegState) : Prop where
  good : ∀ s ∈ st.allSentences,
    s.itemIndices ≠ [] ∧ s.itemIndices.Pairwise (· < ·) ∧
      ∀ x ∈ s.itemIndices, x < n
  disj : st.allSentences.Pairwise disjIdx
  accDisj : ∀ s ∈ st.allSentences, ∀ x ∈ s.itemIndices,
    x ∉ st.currentItemIndices
  accSorted : st.currentItemIndices.Pairwise (· < ·)
  accLt : ∀ x ∈ st.currentItemIndices, x < n
  accEmpty : st.currentItemIndices = [] → st.fullText = []
  accShape : accOk st.fullText = true

/-- The middle element (position `⌊n/2⌋`) of the ascending-sorted fragment
heights — the quantity the code indexes as the page's median height, before
the `|| 12` fallback. -/
def specMedianHeight (items : List Item) : ℚ :=
  (sortAsc (items.map itemHeight)).getD
    ((sortAsc (items.map itemHeight)).length / 2) 0

/-- The three fragments of the specification's example page: a large-height
heading followed by two body fragments at the median height. -/
def chapterItems : List Item :=
  [⟨"Chapter 1".data, 20, 50⟩,
   ⟨"The cat sat.".data, 10, 50⟩,
   ⟨"It was happy!".data, 10, 50⟩]

/-- A page on which the middle element of the sorted heights is 0: two
zero-height fragments and one body fragment of height 5. -/
def zeroHeightItems : List Item :=
  [⟨"zz".data, 0, 50⟩, ⟨"zz".data, 0, 50⟩, ⟨"Hello world".data, 5, 50⟩]

/-- A page whose first fragment has empty text. -/
def emptyStrItems : List Item :=
  [⟨[], 10, 50⟩, ⟨"Hey.".data, 10, 50⟩]

/-! ## Theorems about the scoring tiers -/

/-- C9: the verdict tier and its encouragement message are a pure function of
the score: every score at least 0.85 is Excellent, every score in
[0.65, 0.85) is Close, and every lower score is NeedsWork, each tier always
carrying the same fixed message; in particular 0.9 is Excellent, 0.7 is
Close and 0.4 is NeedsWork. -/
theorem encouragement_tiers (score : ℚ) :
    getEncouragement score = tierMessage (verdictTier score) ∧
    (verdictTier score = .Excellent ↔ 85 / 100 ≤ score) ∧
    (verdictTier score = .Close ↔ 65 / 100 ≤ score ∧ score < 85 / 100) ∧
    (verdictTier score = .NeedsWork ↔ score < 65 / 100) ∧
    verdictTier (9 / 10) = .Excellent ∧
    verdictTier (7 / 10) = .Close ∧
    verdictTier (4 / 10) = .NeedsWork := by
  have hmsg : getEncouragement score = tierMessage (verdictTier score) := by
    unfold getEncouragement verdictTier tierMessage
    split_ifs <;> rfl
  have hE : verdictTier score = .Excellent ↔ 85 / 100 ≤ score := by
    unfold verdictTier
    split_ifs with h1 h2 <;> simp [h1]
  have hC : verdictTier score = .Close ↔ 65 / 100 ≤ score ∧ score < 85 / 100 := by
    unfold verdictTier
    split_ifs with h1 h2
    · constructor
      · intro h; simp at h
      · rintro ⟨-, h⟩; linarith
    · simp [h2, not_le.mp h1]
    · constructor
      · intro h; simp at h
      · rintro ⟨h, -⟩; exact absurd h h2
  have hN : verdictTier score = .NeedsWork ↔ score < 65 / 100 := by
    unfold verdictTier
    split_ifs with h1 h2
    · constructor
      · intro h; simp at h
      · intro h; linarith
    · constructor
      · intro h; simp at h
      · intro h; linarith
    · simp [not_le.mp h2]
  exact ⟨hmsg, hE, hC, hN, by decide, by decide, by decide⟩

/-! ## Theorems about the WAV quantization -/

/-- C10: after clamping to [-1, 1], a sample `s` is encoded as `s * 32768`
when `s < 0` and as `s * 32767` when `0 ≤ s` (truncated to an integer by
`setInt16`), so the encoded value always lies in the signed 16-bit range
[-32768, 32767]. -/
theorem quantize_asymmetric_range (sample : ℚ) :
    (max (-1) (min 1 sample) < 0 →
      quantizePCM sample = ratTrunc (max (-1) (min 1 sample) * 32768)) ∧
    (0 ≤ max (-1) (min 1 sample) →
      quantizePCM sample = ratTrunc (max (-1) (min 1 sample) * 32767)) ∧
    -32768 ≤ quantizePCM sample ∧ quantizePCM sample ≤ 32767 := by
  have hm1 : (-1 : ℚ) ≤ max (-1) (min 1 sample) := le_max_left _ _
  have hle1 : max (-1) (min 1 sample) ≤ 1 :=
    max_le (by norm_num) (min_le_left _ _)
  refine ⟨fun h => by simp only [quantizePCM, if_pos h],
          fun h => by simp only [quantizePCM, if_neg (not_lt.mpr h)], ?_, ?_⟩
  · by_cases h : max (-1) (min 1 sample) < 0
    · have hv : (-32768 : ℚ) ≤ max (-1) (min 1 sample) * 32768 := by nlinarith
      have hv0 : max (-1) (min 1 sample) * 32768 < 0 := by nlinarith
      simp only [quantizePCM, if_pos h, ratTrunc, if_pos hv0]
      calc (-32768 : ℤ) = ⌈(-32768 : ℚ)⌉ := by decide
        _ ≤ ⌈max (-1) (min 1 sample) * 32768⌉ := Int.ceil_le_ceil hv
    · have h0 : (0 : ℚ) ≤ max (-1) (min 1 sample) := not_lt.mp h
      have hv : (0 : ℚ) ≤ max (-1) (min 1 sample) * 32767 := by nlinarith
      simp only [quantizePCM, if_neg h, ratTrunc, if_neg (not_lt.mpr hv)]
      calc (-32768 : ℤ) ≤ 0 := by decide
        _ ≤ ⌊max (-1) (min 1 sample) * 32767⌋ := Int.floor_nonneg.mpr hv
  · by_cases h : max (-1) (min 1 sample) < 0
    · have hv0 : max (-1) (min 1 sample) * 32768 < 0 := by nlinarith
      simp only [quantizePCM, if_pos h, ratTrunc, if_pos hv0]
      calc ⌈max (-1) (min 1 sample) * 32768⌉ ≤ 0 :=
            Int.ceil_le.mpr (by exact_mod_cast hv0.le)
        _ ≤ 32767 := by decide
    · have hv : max (-1) (min 1 sample) * 32767 ≤ 32767 := by nlinarith
      have hv0 : ¬ max (-1) (min 1 sample) * 32767 < 0 := by
        simp only [not_lt]; nlinarith [not_lt.mp h]
      simp only [quantizePCM, if_neg h, ratTrunc, if_neg hv0]
      calc ⌊max (-1) (min 1 sample) * 32767⌋ ≤ ⌊(32767 : ℚ)⌋ :=
            Int.floor_le_floor hv
        _ = 32767 := by decide

/-- Witness for C10 at the concrete samples -1/2 (negative branch) and 3/2
(clamped positive branch). -/
theorem quantize_asymmetric_range_witness :
    quantizePCM (-1 / 2) = ratTrunc (max (-1) (min 1 (-1 / 2)) * 32768) ∧
    quantizePCM (3 / 2) = ratTrunc (max (-1) (min 1 (3 / 2)) * 32767) ∧
    -32768 ≤ quantizePCM (-1 / 2) ∧ quantizePCM (3 / 2) ≤ 32767 :=
  ⟨(quantize_asymmetric_range (-1 / 2)).1 (by decide),
   (quantize_asymmetric_range (3 / 2)).2.1 (by decide),
   (quantize_asymmetric_range (-1 / 2)).2.2.1,
   (quantize_asymmetric_range (3 / 2)).2.2.2⟩

/-! ## Theorems about the WAV container -/

/-- The encoded sample data is two bytes per sample. -/
lemma flatMap_i16le_length (l : List ℚ) :
    (l.flatMap fun s => i16le (quantizePCM s)).length = 2 * l.length := by
  induction l with
  | nil => rfl
  | cons a t ih =>
    simp only [List.flatMap_cons, List.length_append, ih, List.length_cons]
    rw [show (i16le (quantizePCM a)).length = 2 from rfl]
    omega

set_option maxHeartbeats 3200000 in
/-- C7: for every decoded capture — whatever the sample rate or channel
count of the input recording was, since decoding is pinned to a 16000 Hz
mono context — the produced buffer starts with a 44-byte RIFF header whose
format tag is 1 (linear PCM), channel count is 1, sample rate is 16000,
bit depth is 16, and whose data-length field is `2 * sampleCount`; the
samples that follow are the clamped, quantized 16-bit encodings. -/
theorem convertToWav_canonical_header (pcmData : List ℚ)
    (h : 2 * pcmData.length < 4294967296) :
    (convertToWav pcmData).length = 44 + 2 * pcmData.length ∧
    (convertToWav pcmData).take 4 = writeString "RIFF" ∧
    readU16le (convertToWav pcmData) 20 = 1 ∧
    readU16le (convertToWav pcmData) 22 = 1 ∧
    readU32le (convertToWav pcmData) 24 = 16000 ∧
    readU16le (convertToWav pcmData) 34 = 16 ∧
    readU32le (convertToWav pcmData) 40 = 2 * pcmData.length ∧
    (convertToWav pcmData).drop 44 =
      (pcmData.flatMap fun s => i16le (quantizePCM s)) := by
  have hd : (convertToWav pcmData).drop 44 =
      (pcmData.flatMap fun s => i16le (quantizePCM s)) := rfl
  have hlen : (convertToWav pcmData).length = 44 + 2 * pcmData.length := by
    have ht : ((convertToWav pcmData).take 44).length = 44 := rfl
    calc (convertToWav pcmData).length
        = ((convertToWav pcmData).take 44).length +
            ((convertToWav pcmData).drop 44).length := by
          rw [← List.length_append, List.take_append_drop]
      _ = 44 + 2 * pcmData.length := by
          rw [ht, hd, flatMap_i16le_length]
  have e1 : (convertToWav pcmData).take 4 = writeString "RIFF" := rfl
  have e2 : readU16le (convertToWav pcmData) 20 = 1 := rfl
  have e3 : readU16le (convertToWav pcmData) 22 = 1 := rfl
  have e4 : readU32le (convertToWav pcmData) 24 = 16000 := by
    show readU16le (convertToWav pcmData) 24 +
        65536 * readU16le (convertToWav pcmData) 26 = 16000
    rw [show readU16le (convertToWav pcmData) 24 = 16000 from rfl,
        show readU16le (convertToWav pcmData) 26 = 0 from rfl]
  have e5 : readU16le (convertToWav pcmData) 34 = 16 := rfl
  have e6 : readU32le (convertToWav pcmData) 40 = 2 * pcmData.length := by
    have h1 : readU16le (convertToWav pcmData) 40 =
        pcmData.length * 2 % 256 + 256 * (pcmData.length * 2 / 256 % 256) :=
      rfl
    have h2 : readU16le (convertToWav pcmData) 42 =
        pcmData.length * 2 / 65536 % 256 +
          256 * (pcmData.length * 2 / 16777216 % 256) := rfl
    show readU16le (convertToWav pcmData) 40 +
        65536 * readU16le (convertToWav pcmData) 42 = 2 * pcmData.length
    rw [h1, h2]
    omega
  exact ⟨hlen, e1, e2, e3, e4, e5, e6, hd⟩

/-- Witness for C7 at the concrete two-sample capture `[3/2, -2]`. -/
theorem convertToWav_canonical_header_witness :
    readU16le (convertToWav [3 / 2, -2]) 22 = 1 ∧
    readU32le (convertToWav [3 / 2, -2]) 24 = 16000 ∧
    readU32le (convertToWav [3 / 2, -2]) 40 = 4 :=
  ⟨(convertToWav_canonical_header [3 / 2, -2] (by decide)).2.2.2.1,
   (convertToWav_canonical_header [3 / 2, -2] (by decide)).2.2.2.2.1,
   (convertToWav_canonical_header [3 / 2, -2] (by decide)).2.2.2.2.2.2.1⟩

/-! ## Theorems about the stop handler -/

/-- C8: the stop handler always stops the microphone tracks (as its final
action), both when WAV conversion succeeds and when decoding fails, and on
decode failure the original compressed recording is forwarded instead of the
whole operation failing. -/
theorem recorder_onstop_release (chunks : List (List ℕ))
    (decoded : Except Unit (List ℚ)) :
    (recorderOnStop chunks decoded).getLast? = some .stopTracks ∧
    (∀ pcmData, decoded = .ok pcmData →
      recorderOnStop chunks decoded =
        [.forward (.wav (convertToWav pcmData)), .stopTracks]) ∧
    (∀ e, decoded = .error e →
      recorderOnStop chunks decoded =
        [.forward (.webm chunks), .stopTracks]) := by
  cases decoded <;> simp [recorderOnStop]

/-- Witness for C8 at a concrete one-chunk capture whose decode fails: the
microphone is released and the WebM blob is forwarded. -/
theorem recorder_onstop_release_witness :
    (recorderOnStop [[7]] (.error ())).getLast? = some .stopTracks ∧
    recorderOnStop [[7]] (.error ()) =
      [.forward (.webm [[7]]), .stopTracks] :=
  ⟨(recorder_onstop_release [[7]] (.error ())).1,
   (recorder_onstop_release [[7]] (.error ())).2.2 () rfl⟩

/-! ## Theorems about the speech-completion handler -/

/-- C3 counterexample: with a single sentence and the cursor on it (the last
sentence), the `onend` handler leaves the state unchanged — in particular the
playing flag stays `true`, not `false` as the claim states. -/
theorem utterance_onend_last_cex :
    utteranceOnEnd [⟨['H', 'i'], false, [0]⟩] ⟨0, true⟩ = ⟨0, true⟩ ∧
    (utteranceOnEnd [⟨['H', 'i'], false, [0]⟩] ⟨0, true⟩).isPlaying = true := by
  decide

/-- C3 amended: on speech completion, if the active index is not the last
one the cursor advances to the next sentence; if it is the last one (or out
of range) the handler does nothing — the cursor stays put and the playing
flag is not cleared. -/
theorem utterance_onend_advance (ss : List Sentence) (st : SchedState) :
    (st.activeSentenceIndex + 1 < ss.length →
      utteranceOnEnd ss st = ⟨st.activeSentenceIndex + 1, st.isPlaying⟩) ∧
    (ss.length ≤ st.activeSentenceIndex + 1 → utteranceOnEnd ss st = st) := by
  constructor
  · intro h
    have hlt : st.activeSentenceIndex < ss.length - 1 := by omega
    simp only [utteranceOnEnd, if_pos hlt]
  · intro h
    have hge : ¬ st.activeSentenceIndex < ss.length - 1 := by omega
    simp only [utteranceOnEnd, if_neg hge]

/-- Witness for C3 (amended) with two sentences: from index 0 the handler
advances to index 1 and keeps the playing flag. -/
theorem utterance_onend_advance_witness :
    utteranceOnEnd [⟨['H', 'i'], false, [0]⟩, ⟨['Y', 'o'], false, [1]⟩]
      ⟨0, true⟩ = ⟨1, true⟩ :=
  (utterance_onend_advance
    [⟨['H', 'i'], false, [0]⟩, ⟨['Y', 'o'], false, [1]⟩] ⟨0, true⟩).1
    (by decide)

/-! ## Theorems about the auto-skip reading effect -/

/-- Specification of the fuelled metadata-skipping loop: with enough fuel the
result is at least the start index, lands on a non-metadata sentence whenever
it is in range, and everything strictly between start and result is
metadata. -/
lemma nextNonMetaGo_spec (ss : List Sentence) :
    ∀ fuel j, ss.length - j ≤ fuel →
      j ≤ nextNonMetaGo ss fuel j ∧
      (∀ hr : nextNonMetaGo ss fuel j < ss.length,
        (ss.get ⟨nextNonMetaGo ss fuel j, hr⟩).isMetadata = false) ∧
      (∀ k (hk : k < ss.length), j ≤ k → k < nextNonMetaGo ss fuel j →
        (ss.get ⟨k, hk⟩).isMetadata = true) := by
  intro fuel
  induction fuel with
  | zero =>
    intro j hle
    refine ⟨le_refl j, fun hr => absurd hr (by simp [nextNonMetaGo]; omega),
      fun k hk h1 h2 => absurd h2 (by simp [nextNonMetaGo]; omega)⟩
  | succ fuel ih =>
    intro j hle
    by_cases h : j < ss.length
    · by_cases hm : (ss.get ⟨j, h⟩).isMetadata
      · have hm2 : ss[j].isMetadata = true := hm
        have hstep : nextNonMetaGo ss (fuel + 1) j =
            nextNonMetaGo ss fuel (j + 1) := by
          simp [nextNonMetaGo, h, hm2]
        obtain ⟨ih1, ih2, ih3⟩ := ih (j + 1) (by omega)
        rw [hstep]
        refine ⟨by omega, ih2, fun k hk h1 h2 => ?_⟩
        rcases Nat.eq_or_lt_of_le h1 with heq | hlt
        · subst heq; exact hm
        · exact ih3 k hk hlt h2
      · have hm2 : ss[j].isMetadata = false := by simpa using hm
        have hstep : nextNonMetaGo ss (fuel + 1) j = j := by
          simp [nextNonMetaGo, h, hm2]
        rw [hstep]
        exact ⟨le_refl j, fun hr => by simpa using hm,
          fun k hk h1 h2 => absurd (lt_of_le_of_lt h1 h2) (lt_irrefl j)⟩
    · have hstep : nextNonMetaGo ss (fuel + 1) j = j := by
        simp [nextNonMetaGo, h]
      rw [hstep]
      exact ⟨le_refl j, fun hr => absurd hr h,
        fun k hk h1 h2 => absurd (lt_of_le_of_lt h1 h2) (lt_irrefl j)⟩

/-- The same specification for `nextNonMeta`, which runs the loop with fuel
`ss.length`. -/
lemma nextNonMeta_spec (ss : List Sentence) (j : Nat) :
    j ≤ nextNonMeta ss j ∧
    (∀ hr : nextNonMeta ss j < ss.length,
      (ss.get ⟨nextNonMeta ss j, hr⟩).isMetadata = false) ∧
    (∀ k (hk : k < ss.length), j ≤ k → k < nextNonMeta ss j →
      (ss.get ⟨k, hk⟩).isMetadata = true) :=
  nextNonMetaGo_spec ss ss.length j (by omega)

/-- Unfolding the reading effect on an in-range metadata sentence. -/
lemma readingEffect_eq_of_meta (ss : List Sentence) (i : Nat)
    (h : i < ss.length) (hm : (ss.get ⟨i, h⟩).isMetadata = true) :
    readingEffect ss ⟨i, true⟩ =
      if nextNonMeta ss (i + 1) < ss.length then
        ⟨⟨nextNonMeta ss (i + 1), true⟩, []⟩
      else ⟨⟨i, true⟩, [.cancel]⟩ := by
  have h0 : 0 < ss.length := by omega
  have hm2 : ss[i].isMetadata = true := hm
  simp [readingEffect, h0, h, hm2]

/-- Unfolding the reading effect on an in-range non-metadata sentence. -/
lemma readingEffect_eq_of_nonmeta (ss : List Sentence) (i : Nat)
    (h : i < ss.length) (hm : (ss.get ⟨i, h⟩).isMetadata = false) :
    readingEffect ss ⟨i, true⟩ =
      ⟨⟨i, true⟩, [.cancel, .speak (ss.get ⟨i, h⟩).text]⟩ := by
  have h0 : 0 < ss.length := by omega
  have hm2 : ss[i].isMetadata = false := hm
  simp [readingEffect, h0, h, hm2]

/-- C4 counterexample: with a single metadata sentence and playback active,
the effect only cancels synthesis — the cursor stays at index 0 and the
playing flag remains `true` — so the Scheduler does not transition to
Stopped (the playing state does not become false), contrary to the claim's
final clause. -/
theorem reading_effect_no_stop_cex :
    (readingEffect [⟨['T'], true, [0]⟩] ⟨0, true⟩).state = ⟨0, true⟩ ∧
    (readingEffect [⟨['T'], true, [0]⟩] ⟨0, true⟩).state.isPlaying = true ∧
    (readingEffect [⟨['T'], true, [0]⟩] ⟨0, true⟩).acts = [.cancel] := by
  decide

/-- C4 amended: whenever playback is active and the active sentence is
metadata, the effect advances past the whole run of consecutive metadata
sentences without passing any text to the speech engine; the sentence it
lands on (and, in general, every sentence whose text is ever passed to
`speak`) is non-metadata, and the next effect run speaks exactly that
sentence.  If no non-metadata sentence remains after the run, the effect
only cancels pending synthesis: the cursor and the playing flag are left
unchanged (the playing state is not set to false), and nothing is ever
spoken. -/
theorem reading_effect_autoskip (ss : List Sentence) (i : Nat)
    (h : i < ss.length) (hm : (ss.get ⟨i, h⟩).isMetadata = true) :
    spokenTexts (readingEffect ss ⟨i, true⟩).acts = [] ∧
    (∀ st t, SpeechAct.speak t ∈ (readingEffect ss st).acts →
      ∃ j, ∃ hj : j < ss.length,
        (ss.get ⟨j, hj⟩).isMetadata = false ∧ t = (ss.get ⟨j, hj⟩).text) ∧
    (∀ hj : nextNonMeta ss (i + 1) < ss.length,
      (readingEffect ss ⟨i, true⟩).state = ⟨nextNonMeta ss (i + 1), true⟩ ∧
      (ss.get ⟨nextNonMeta ss (i + 1), hj⟩).isMetadata = false ∧
      i < nextNonMeta ss (i + 1) ∧
      (∀ k (hk : k < ss.length), i < k → k < nextNonMeta ss (i + 1) →
        (ss.get ⟨k, hk⟩).isMetadata = true) ∧
      spokenTexts (readingEffect ss ⟨nextNonMeta ss (i + 1), true⟩).acts =
        [(ss.get ⟨nextNonMeta ss (i + 1), hj⟩).text]) ∧
    (ss.length ≤ nextNonMeta ss (i + 1) →
      (readingEffect ss ⟨i, true⟩).state = ⟨i, true⟩ ∧
      (readingEffect ss ⟨i, true⟩).acts = [.cancel]) := by
  obtain ⟨hj1, hj2, hj3⟩ := nextNonMeta_spec ss (i + 1)
  refine ⟨?_, ?_, ?_, ?_⟩
  · rw [readingEffect_eq_of_meta ss i h hm]
    by_cases hn : nextNonMeta ss (i + 1) < ss.length
    · rw [if_pos hn]
      rfl
    · rw [if_neg hn]
      rfl
  · intro st t
    unfold readingEffect
    by_cases hb : (st.isPlaying && decide (0 < ss.length)) = true
    · rw [if_pos hb]
      by_cases hlt : st.activeSentenceIndex < ss.length
      · rw [dif_pos hlt]
        by_cases hsm : (ss.get ⟨st.activeSentenceIndex, hlt⟩).isMetadata
        · rw [if_pos hsm]
          by_cases hn : nextNonMeta ss (st.activeSentenceIndex + 1) < ss.length
          · rw [if_pos hn]
            intro hmem
            simp at hmem
          · rw [if_neg hn]
            intro hmem
            simp at hmem
        · rw [if_neg hsm]
          intro hmem
          simp at hmem
          exact ⟨st.activeSentenceIndex, hlt, by simpa using hsm, hmem⟩
      · rw [dif_neg hlt]
        intro hmem
        simp at hmem
    · rw [if_neg hb]
      intro hmem
      simp at hmem
  · intro hj
    have hst : readingEffect ss ⟨i, true⟩ = ⟨⟨nextNonMeta ss (i + 1), true⟩, []⟩ := by
      rw [readingEffect_eq_of_meta ss i h hm, if_pos hj]
    have hnm : (ss.get ⟨nextNonMeta ss (i + 1), hj⟩).isMetadata = false := hj2 hj
    refine ⟨by rw [hst], hnm, by omega, fun k hk h1 h2 => hj3 k hk (by omega) h2, ?_⟩
    rw [readingEffect_eq_of_nonmeta ss (nextNonMeta ss (i + 1)) hj hnm]
    rfl
  · intro hge
    have hst : readingEffect ss ⟨i, true⟩ = ⟨⟨i, true⟩, [.cancel]⟩ := by
      rw [readingEffect_eq_of_meta ss i h hm, if_neg (not_lt.mpr hge)]
    exact ⟨by rw [hst], by rw [hst]⟩

/-- Witness for C4 at a concrete page: two leading metadata sentences are
skipped in one effect run and the following body sentence is the first one
spoken. -/
theorem reading_effect_autoskip_witness :
    (readingEffect
        [⟨['T'], true, [0]⟩, ⟨['1'], true, [1]⟩, ⟨['o', 'k'], false, [2]⟩]
        ⟨0, true⟩).state = ⟨2, true⟩ ∧
    spokenTexts
      (readingEffect
        [⟨['T'], true, [0]⟩, ⟨['1'], true, [1]⟩, ⟨['o', 'k'], false, [2]⟩]
        ⟨2, true⟩).acts = [['o', 'k']] := by
  have H := reading_effect_autoskip
    [⟨['T'], true, [0]⟩, ⟨['1'], true, [1]⟩, ⟨['o', 'k'], false, [2]⟩]
    0 (by decide) (by decide)
  obtain ⟨-, -, H3, -⟩ := H
  obtain ⟨hs, -, -, -, hspoken⟩ := H3 (by decide)
  exact ⟨hs, hspoken⟩

/-! ## Theorems about word alignment -/

/-- C6 counterexample: `getWordMatchMap` does not strip punctuation — the
expected word "cat." spoken as "cat" is marked wrong, while the claimed
normalization (lower-case, strip punctuation, split on whitespace) marks it
right. -/
theorem word_alignment_no_strip_cex :
    getWordMatchMap ("cat.".data) (some ("cat".data)) =
      [⟨"cat.".data, false⟩] ∧
    specPositionalMarks ("cat.".data) ("cat".data) = [true] := by
  decide

/-- C6 amended: the expected text and the spoken transcript are lower-cased
(without stripping punctuation) and split on single spaces; word `i` is
marked correct exactly when spoken word `i` equals expected word `i`; the
example "the cat sat" against "the cat sad" yields [true, true, false]. -/
theorem word_alignment_positional (expected spoken : Str) :
    ((getWordMatchMap expected (some spoken)).map WordMark.word =
      splitOnSpace (jsToLower expected)) ∧
    (∀ i w, (splitOnSpace (jsToLower expected)).get? i = some w →
      (getWordMatchMap expected (some spoken)).get? i =
        some ⟨w, decide ((splitOnSpace (jsToLower spoken)).get? i = some w)⟩) ∧
    (getWordMatchMap ("the cat sat".data) (some ("the cat sad".data))).map
        WordMark.correct = [true, true, false] := by
  refine ⟨?_, ?_, by decide⟩
  · unfold getWordMatchMap
    rw [List.map_map]
    exact List.enum_map_snd _
  · intro i w hw
    unfold getWordMatchMap
    rw [List.get?_map, List.get?_enum, hw]
    rfl

/-- Witness for C6 (amended) at expected "ab cd" and spoken "ab": word 0
matches positionally. -/
theorem word_alignment_positional_witness :
    (getWordMatchMap ("ab cd".data) (some ("ab".data))).get? 0 =
      some ⟨"ab".data, true⟩ := by
  have H := (word_alignment_positional ("ab cd".data) ("ab".data)).2.1 0
    ("ab".data) (by decide)
  exact H.trans (by decide)

/-! ## Theorems about the segmenter's body-fragment flush -/

/-- C2 counterexample: a single body fragment "Hi. Bye." containing two
sentence terminators is flushed as ONE sentence holding the whole
accumulated text — not as two separate sentences, one per split piece, as
the claim states. -/
theorem segmenter_body_flush_not_split_cex :
    onPageLoadSuccess 100 [⟨"Hi. Bye.".data, 10, 50⟩] =
      [⟨"Hi. Bye.".data, false, [0]⟩] ∧
    (onPageLoadSuccess 100 [⟨"Hi. Bye.".data, 10, 50⟩]).length ≠ 2 := by
  decide

/-- C2 amended: on a body fragment whose text contains terminal punctuation
the Segmenter computes the split of the accumulated text only to decide
whether to flush; if the split yields more than one piece, or exactly one
piece while the trimmed accumulator ends in terminal punctuation, the whole
accumulator is emitted as a single non-metadata sentence (otherwise the
accumulator is kept).  The example fragments "The cat sat." and "It was
happy!" after the heading "Chapter 1" do yield two separate body sentences,
because each fragment triggers its own flush. -/
theorem segmenter_body_flush_whole_accumulator (ctx : PageCtx)
    (st : SegState) (idx : Nat) (it : Item) (hne : it.str ≠ [])
    (hbody : classifyMeta ctx it = false)
    (hterm : it.str.any isTerm = true) :
    ((1 < (jsMatchPieces (st.fullText ++ it.str ++ [' '])).length ∨
      ((jsMatchPieces (st.fullText ++ it.str ++ [' '])).length = 1 ∧
        endsTerm (jsTrim (st.fullText ++ it.str ++ [' '])) = true)) →
      processItem ctx st idx it =
        ⟨st.allSentences ++
          [⟨jsTrim (st.fullText ++ it.str ++ [' ']), false,
            st.currentItemIndices ++ [idx]⟩], [], []⟩) ∧
    (¬(1 < (jsMatchPieces (st.fullText ++ it.str ++ [' '])).length ∨
      ((jsMatchPieces (st.fullText ++ it.str ++ [' '])).length = 1 ∧
        endsTerm (jsTrim (st.fullText ++ it.str ++ [' '])) = true)) →
      processItem ctx st idx it =
        ⟨st.allSentences, st.fullText ++ it.str ++ [' '],
          st.currentItemIndices ++ [idx]⟩) ∧
    onPageLoadSuccess 100 chapterItems =
      [⟨"Chapter 1".data, true, [0]⟩,
       ⟨"The cat sat.".data, false, [1]⟩,
       ⟨"It was happy!".data, false, [2]⟩] := by
  refine ⟨?_, ?_, by decide⟩
  · intro hcond
    have hcond2 : (1 < (jsMatchPieces (st.fullText ++ it.str ++ [' '])).length ||
        ((jsMatchPieces (st.fullText ++ it.str ++ [' '])).length = 1 &&
          endsTerm (jsTrim (st.fullText ++ it.str ++ [' '])))) = true := by
      simp only [Bool.or_eq_true, Bool.and_eq_true, decide_eq_true_eq]
      rcases hcond with h1 | ⟨h1, h2⟩
      · exact Or.inl h1
      · exact Or.inr ⟨h1, h2⟩
    simp only [processItem, if_neg hne, hbody, Bool.false_eq_true, if_false,
      hterm, if_true, hcond2]
  · intro hcond
    have hcond2 : ¬((1 < (jsMatchPieces (st.fullText ++ it.str ++ [' '])).length ||
        ((jsMatchPieces (st.fullText ++ it.str ++ [' '])).length = 1 &&
          endsTerm (jsTrim (st.fullText ++ it.str ++ [' '])))) = true) := by
      simp only [Bool.or_eq_true, Bool.and_eq_true, decide_eq_true_eq]
      intro hc
      rcases hc with h1 | ⟨h1, h2⟩
      · exact hcond (Or.inl h1)
      · exact hcond (Or.inr ⟨h1, h2⟩)
    simp only [processItem, if_neg hne, hbody, Bool.false_eq_true, if_false,
      hterm, if_true, if_neg hcond2]

/-- Witness for C2 (amended): processing the fragment "The cat sat." with an
empty accumulator flushes the whole accumulator as one sentence. -/
theorem segmenter_body_flush_whole_accumulator_witness :
    processItem (mkPageCtx 100 chapterItems) ⟨[], [], []⟩ 1
        ⟨"The cat sat.".data, 10, 50⟩ =
      ⟨[⟨"The cat sat.".data, false, [1]⟩], [], []⟩ := by
  have H := (segmenter_body_flush_whole_accumulator
    (mkPageCtx 100 chapterItems) ⟨[], [], []⟩ 1 ⟨"The cat sat.".data, 10, 50⟩
    (by decide) (by decide) (by decide)).1 (by decide)
  exact H.trans (by decide)

/-! ## splitRuns and accumulator-shape lemmas -/

/-- On a terminator-free suffix the scan in state `(cur, false)` accumulates
everything into one final piece. -/
lemma splitRunsGo_all_nonterm :
    ∀ (cs cur : Str), (cs.all fun c => ! isTerm c) = true →
      splitRunsGo cur false cs =
        if cur.reverse ++ cs = [] then [] else [cur.reverse ++ cs] := by
  intro cs
  induction cs with
  | nil =>
    intro cur _
    by_cases h : cur = [] <;> simp [splitRunsGo, h]
  | cons c cs ih =>
    intro cur hall
    simp only [List.all_cons, Bool.and_eq_true, Bool.not_eq_true'] at hall
    simp only [splitRunsGo, hall.1, Bool.false_eq_true, if_false,
      ih (c :: cur) hall.2]
    simp [List.append_assoc]

/-- Leading terminators are skipped by the scan started in the empty
state. -/
lemma splitRunsGo_skip_terms :
    ∀ (ts cs : Str), ts.all isTerm = true →
      splitRunsGo [] false (ts ++ cs) = splitRunsGo [] false cs := by
  intro ts
  induction ts with
  | nil => intro cs _; rfl
  | cons t ts ih =>
    intro cs hall
    simp only [List.all_cons, Bool.and_eq_true] at hall
    simp only [List.cons_append, splitRunsGo, hall.1, if_true, if_pos rfl]
    exact ih cs hall.2

/-- On an `accOk` accumulator the splitter yields at most one piece: nothing
when the text is all terminators, otherwise the text with its leading
terminators removed. -/
lemma splitRuns_of_accOk (cs : Str) (h : accOk cs = true) :
    splitRuns cs =
      if cs.dropWhile isTerm = [] then [] else [cs.dropWhile isTerm] := by
  have h2 : ((cs.dropWhile isTerm).all fun c => ! isTerm c) = true := h
  have htake : (cs.takeWhile isTerm).all isTerm = true :=
    List.all_eq_true.mpr fun x hx => List.mem_takeWhile_imp hx
  have hstep : splitRuns cs =
      splitRunsGo [] false (cs.dropWhile isTerm) := by
    unfold splitRuns
    conv_lhs =>
      rw [← List.takeWhile_append_dropWhile (p := isTerm) (l := cs)]
    exact splitRunsGo_skip_terms _ _ htake
  rw [hstep, splitRunsGo_all_nonterm _ [] h2]
  simp

/-- On an `accOk` accumulator `match(...) || [fullText]` is a single
piece. -/
lemma jsMatchPieces_of_accOk (cs : Str) (h : accOk cs = true) :
    jsMatchPieces cs = [cs] ∨ jsMatchPieces cs = [cs.dropWhile isTerm] := by
  unfold jsMatchPieces
  rw [splitRuns_of_accOk cs h]
  by_cases hd : cs.dropWhile isTerm = []
  · left; simp [hd]
  · right; simp [hd]

/-- Every sentence emitted by a flush carries the accumulator's index list,
is non-metadata, and has non-empty text. -/
lemma mem_accSentences {s : Sentence} {ft : Str} {idxs : List Nat}
    (h : s ∈ accSentences ft idxs) :
    s.itemIndices = idxs ∧ s.isMetadata = false ∧ s.text ≠ [] := by
  unfold accSentences at h
  obtain ⟨a, ha, heq⟩ := List.mem_filterMap.mp h
  by_cases ht : jsTrim a = []
  · rw [if_pos ht] at heq
    exact absurd heq (by simp)
  · rw [if_neg ht] at heq
    injection heq with h2
    subst h2
    exact ⟨rfl, rfl, ht⟩

/-- On an `accOk` accumulator a flush emits at most one sentence, and only
from a non-empty accumulator. -/
lemma accSentences_of_accOk (ft : Str) (idxs : List Nat)
    (h : accOk ft = true) :
    accSentences ft idxs = [] ∨
    (ft ≠ [] ∧ ∃ t, t ≠ [] ∧ accSentences ft idxs = [⟨t, false, idxs⟩]) := by
  rcases jsMatchPieces_of_accOk ft h with hp | hp
  · unfold accSentences
    rw [hp]
    by_cases ht : jsTrim ft = []
    · left; simp [List.filterMap_cons, ht]
    · right
      refine ⟨fun hft => ht (by rw [hft]; rfl), jsTrim ft, ht, ?_⟩
      simp [List.filterMap_cons, ht]
  · unfold accSentences
    rw [hp]
    by_cases ht : jsTrim (ft.dropWhile isTerm) = []
    · left; simp [List.filterMap_cons, ht]
    · right
      have hd : ft.dropWhile isTerm ≠ [] := fun h0 => ht (by rw [h0]; rfl)
      refine ⟨fun hft => hd (by rw [hft]; rfl),
        jsTrim (ft.dropWhile isTerm), ht, ?_⟩
      simp [List.filterMap_cons, ht]

/-- Dropping terminators through an all-terminator prefix. -/
lemma dropWhile_append_all_terms :
    ∀ (a b : Str), a.all isTerm = true →
      (a ++ b).dropWhile isTerm = b.dropWhile isTerm := by
  intro a
  induction a with
  | nil => intro b _; rfl
  | cons x a ih =>
    intro b hall
    simp only [List.all_cons, Bool.and_eq_true] at hall
    simp only [List.cons_append, List.dropWhile_cons, hall.1, if_true]
    exact ih b hall.2

/-- Dropping terminators is the identity on a terminator-free string. -/
lemma dropWhile_of_all_nonterm (b : Str)
    (h : (b.all fun c => ! isTerm c) = true) : b.dropWhile isTerm = b := by
  cases b with
  | nil => rfl
  | cons x b =>
    simp only [List.all_cons, Bool.and_eq_true, Bool.not_eq_true'] at h
    simp [List.dropWhile_cons, h.1]

/-- The head surviving `dropWhile isTerm` is not a terminator. -/
lemma dropWhile_head_nonterm :
    ∀ (l : Str) c rest, l.dropWhile isTerm = c :: rest → isTerm c = false := by
  intro l
  induction l with
  | nil => intro c rest h; simp at h
  | cons a l ih =>
    intro c rest h
    by_cases ha : isTerm a = true
    · rw [List.dropWhile_cons, if_pos ha] at h
      exact ih c rest h
    · rw [List.dropWhile_cons, if_neg ha] at h
      injection h with h1 h2
      subst h1
      exact Bool.eq_false_iff.mpr (fun hc => ha hc)

/-- Appending terminator-free text preserves the accumulator shape. -/
lemma accOk_append (a b : Str) (ha : accOk a = true)
    (hb : (b.all fun c => ! isTerm c) = true) : accOk (a ++ b) = true := by
  have ha2 : ((a.dropWhile isTerm).all fun c => ! isTerm c) = true := ha
  have htake : (a.takeWhile isTerm).all isTerm = true :=
    List.all_eq_true.mpr fun x hx => List.mem_takeWhile_imp hx
  show ((a ++ b).dropWhile isTerm).all (fun c => ! isTerm c) = true
  conv_lhs =>
    rw [← List.takeWhile_append_dropWhile (p := isTerm) (l := a),
      List.append_assoc, dropWhile_append_all_terms _ _ htake]
  cases hd : a.dropWhile isTerm with
  | nil =>
    simp only [List.nil_append]
    rw [dropWhile_of_all_nonterm b hb]
    exact hb
  | cons d rest =>
    have hdt : isTerm d = false := dropWhile_head_nonterm a d rest hd
    rw [hd] at ha2
    simp only [List.cons_append, List.dropWhile_cons, hdt,
      Bool.false_eq_true, if_false]
    simp only [List.all_cons, Bool.and_eq_true, Bool.not_eq_true'] at ha2 ⊢
    exact ⟨ha2.1, by simp only [List.all_append, Bool.and_eq_true]
                     exact ⟨ha2.2, hb⟩⟩

/-- The test `endsTerm` ignores a leading character when the tail is non-empty. -/
lemma endsTerm_cons_of_ne (c : Char) (cs : Str) (h : cs ≠ []) :
    endsTerm (c :: cs) = endsTerm cs := by
  cases cs with
  | nil => exact absurd rfl h
  | cons d ds => simp [endsTerm]

/-- A terminator followed by terminators ends in a terminator. -/
lemma endsTerm_of_all_terms :
    ∀ (cs : Str) (c : Char), isTerm c = true → cs.all isTerm = true →
      endsTerm (c :: cs) = true := by
  intro cs
  induction cs with
  | nil =>
    intro c hc _
    simp [endsTerm, hc]
  | cons d ds ih =>
    intro c hc hall
    simp only [List.all_cons, Bool.and_eq_true] at hall
    rw [endsTerm_cons_of_ne c (d :: ds) (by simp)]
    exact ih d hall.1 hall.2

/-- A scan started with a non-empty current piece emits at least one
piece. -/
lemma splitRunsGo_length_pos :
    ∀ (cs cur : Str) (b : Bool), cur ≠ [] →
      1 ≤ (splitRunsGo cur b cs).length := by
  intro cs
  induction cs with
  | nil =>
    intro cur b h
    simp [splitRunsGo, h]
  | cons c cs ih =>
    intro cur b h
    by_cases ht : isTerm c = true
    · simp only [splitRunsGo, ht, if_true, if_neg h]
      exact ih (c :: cur) true (by simp)
    · cases b with
      | false =>
        simp only [splitRunsGo, ht, Bool.false_eq_true, if_false]
        exact ih (c :: cur) false (by simp)
      | true =>
        simp only [splitRunsGo, ht, Bool.false_eq_true, if_false, if_true,
          List.length_cons]
        omega

/-- A scan in the terminator-tail state either eventually emits a second
piece, or the rest of the input is all terminators. -/
lemma splitRunsGo_true_cases :
    ∀ (cs cur : Str), cur ≠ [] →
      2 ≤ (splitRunsGo cur true cs).length ∨
      ((splitRunsGo cur true cs).length = 1 ∧ cs.all isTerm = true) := by
  intro cs
  induction cs with
  | nil =>
    intro cur h
    right
    simp [splitRunsGo, h]
  | cons c cs ih =>
    intro cur h
    by_cases ht : isTerm c = true
    · simp only [splitRunsGo, ht, if_true, if_neg h]
      rcases ih (c :: cur) (by simp) with h2 | ⟨h2, h3⟩
      · exact Or.inl h2
      · exact Or.inr ⟨h2, by simp [ht, h3]⟩
    · left
      simp only [splitRunsGo, ht, Bool.false_eq_true, if_false, if_true,
        List.length_cons]
      have := splitRunsGo_length_pos cs [c] false (by simp)
      omega

/-- A terminator anywhere after a non-empty current piece in the plain state
forces either a second piece or a trailing terminator. -/
lemma splitRunsGo_false_cases :
    ∀ (cs cur : Str), cur ≠ [] → cs.any isTerm = true →
      2 ≤ (splitRunsGo cur false cs).length ∨
      ((splitRunsGo cur false cs).length = 1 ∧ endsTerm cs = true) := by
  intro cs
  induction cs with
  | nil =>
    intro cur h hany
    simp at hany
  | cons c cs ih =>
    intro cur h hany
    by_cases ht : isTerm c = true
    · simp only [splitRunsGo, ht, if_true, if_neg h]
      rcases splitRunsGo_true_cases cs (c :: cur) (by simp) with h2 | ⟨h2, h3⟩
      · exact Or.inl h2
      · refine Or.inr ⟨h2, ?_⟩
        exact endsTerm_of_all_terms cs c ht h3
    · have hany2 : cs.any isTerm = true := by
        simp only [List.any_cons, Bool.or_eq_true] at hany
        rcases hany with h2 | h2
        · exact absurd h2 (by simp [ht])
        · exact h2
      have hne : cs ≠ [] := by
        intro h0
        rw [h0] at hany2
        simp at hany2
      simp only [splitRunsGo, ht, Bool.false_eq_true, if_false]
      rcases ih (c :: cur) (by simp) hany2 with h2 | ⟨h2, h3⟩
      · exact Or.inl h2
      · exact Or.inr ⟨h2, by rw [endsTerm_cons_of_ne c cs hne]; exact h3⟩

/-- Terminal punctuation is not whitespace. -/
lemma isTerm_not_ws (c : Char) (h : isTerm c = true) : isWs c = false := by
  simp only [isTerm, Bool.or_eq_true, decide_eq_true_eq] at h
  rcases h with (h | h) | h <;> subst h <;> decide

/-- Dropping leading whitespace keeps a non-whitespace last character. -/
lemma getLast?_dropWhile_ws :
    ∀ (l : Str) (t : Char), l.getLast? = some t → isWs t = false →
      (l.dropWhile isWs).getLast? = some t := by
  intro l
  induction l with
  | nil => intro t hl _; simp at hl
  | cons a l ih =>
    intro t hl hws
    by_cases ha : isWs a = true
    · cases l with
      | nil =>
        simp only [List.getLast?_singleton, Option.some.injEq] at hl
        subst hl
        rw [ha] at hws
        exact absurd hws (by simp)
      | cons b l2 =>
        rw [List.getLast?_cons_cons] at hl
        rw [List.dropWhile_cons, if_pos ha]
        exact ih t hl hws
    · rw [List.dropWhile_cons, if_neg ha]
      exact hl

/-- Dropping whitespace does nothing when the head is not whitespace. -/
lemma dropWhile_ws_of_head (l : Str) (c : Char) (hh : l.head? = some c)
    (hc : isWs c = false) : l.dropWhile isWs = l := by
  cases l with
  | nil => simp at hh
  | cons x xs =>
    simp only [List.head?_cons, Option.some.injEq] at hh
    subst hh
    simp [List.dropWhile_cons, hc]

/-- Trimming preserves a terminal last character: the terminator is not
whitespace, so it survives both trims. -/
lemma endsTerm_jsTrim (cs : Str) (h : endsTerm cs = true) :
    endsTerm (jsTrim cs) = true := by
  obtain ⟨t, hlast⟩ : ∃ t, cs.getLast? = some t := by
    unfold endsTerm at h
    cases hg : cs.getLast? with
    | none => rw [hg] at h; simp at h
    | some c => exact ⟨c, rfl⟩
  have hterm : isTerm t = true := by
    unfold endsTerm at h
    rw [hlast] at h
    exact h
  have hws := isTerm_not_ws t hterm
  have h1 := getLast?_dropWhile_ws cs t hlast hws
  have h2 : (cs.dropWhile isWs).reverse.head? = some t := by
    rw [List.head?_reverse]
    exact h1
  have h3 := dropWhile_ws_of_head _ t h2 hws
  unfold jsTrim
  rw [h3, List.reverse_reverse]
  unfold endsTerm
  rw [h1]
  exact hterm

/-- When the accumulator does not have the `accOk` shape, the flush
condition of the body branch holds: the split yields at least two pieces, or
exactly one piece while the trimmed accumulator ends in a terminator. -/
lemma flushCond_of_not_accOk (cs : Str) (h : accOk cs = false) :
    2 ≤ (jsMatchPieces cs).length ∨
    ((jsMatchPieces cs).length = 1 ∧ endsTerm (jsTrim cs) = true) := by
  have h2 : ((cs.dropWhile isTerm).all fun c => ! isTerm c) = false := h
  cases hd : cs.dropWhile isTerm with
  | nil =>
    rw [hd] at h2
    simp at h2
  | cons d ds =>
    have hdt : isTerm d = false := dropWhile_head_nonterm cs d ds hd
    rw [hd] at h2
    simp only [List.all_cons, hdt, Bool.not_false, Bool.true_and] at h2
    have hany : ds.any isTerm = true := by
      by_cases hq : ds.any isTerm = true
      · exact hq
      · exfalso
        have hq2 : ds.any isTerm = false := by
          cases hq3 : ds.any isTerm
          · rfl
          · exact absurd hq3 hq
        have : (ds.all fun c => ! isTerm c) = true := by
          simp only [List.all_eq_true, Bool.not_eq_true']
          intro x hx
          have hx2 := (List.any_eq_false.mp hq2) x hx
          exact Bool.eq_false_iff.mpr hx2
        rw [this] at h2
        exact absurd h2 (by decide)
    have htake : (cs.takeWhile isTerm).all isTerm = true :=
      List.all_eq_true.mpr fun x hx => List.mem_takeWhile_imp hx
    have hgo : splitRuns cs = splitRunsGo [d] false ds := by
      unfold splitRuns
      conv_lhs =>
        rw [← List.takeWhile_append_dropWhile (p := isTerm) (l := cs)]
      rw [splitRunsGo_skip_terms _ _ htake, hd]
      simp [splitRunsGo, hdt]
    rcases splitRunsGo_false_cases ds [d] (by simp) hany with hcase | ⟨hlen, hend⟩
    · left
      have hne : splitRuns cs ≠ [] := by
        rw [hgo]
        intro h0
        rw [h0] at hcase
        simp at hcase
      unfold jsMatchPieces
      rw [if_neg hne, hgo]
      exact hcase
    · right
      have hne : splitRuns cs ≠ [] := by
        rw [hgo]
        intro h0
        rw [h0] at hlen
        simp at hlen
      have hds_ne : ds ≠ [] := by
        intro h0
        rw [h0] at hany
        simp at hany
      have hlast : cs.getLast? = ds.getLast? := by
        conv_lhs =>
          rw [← List.takeWhile_append_dropWhile (p := isTerm) (l := cs)]
        rw [List.getLast?_append, hd]
        cases ds with
        | nil => exact absurd rfl hds_ne
        | cons e es =>
          cases hgl : (e :: es).getLast? with
          | none => simp at hgl
          | some y => rw [List.getLast?_cons_cons, hgl]; rfl
      have hcs_ends : endsTerm cs = true := by
        unfold endsTerm at hend ⊢
        rw [hlast]
        exact hend
      refine ⟨?_, endsTerm_jsTrim cs hcs_ends⟩
      unfold jsMatchPieces
      rw [if_neg hne, hgo]
      exact hlen

/-! ## The segmentation loop invariant -/

/-- The invariant is monotone in the item counter. -/
lemma SegInv.mono {n m : Nat} {st : SegState} (h : SegInv n st)
    (hnm : n ≤ m) : SegInv m st where
  good s hs := ⟨(h.good s hs).1, (h.good s hs).2.1,
    fun x hx => lt_of_lt_of_le ((h.good s hs).2.2 x hx) hnm⟩
  disj := h.disj
  accDisj := h.accDisj
  accSorted := h.accSorted
  accLt x hx := lt_of_lt_of_le (h.accLt x hx) hnm
  accEmpty := h.accEmpty
  accShape := h.accShape

/-- Branch equation: empty fragments are skipped. -/
lemma processItem_eq_empty (ctx : PageCtx) (st : SegState) (n : Nat)
    (it : Item) (h : it.str = []) : processItem ctx st n it = st := by
  simp [processItem, h]

/-- Branch equation: metadata fragment with nothing accumulated. -/
lemma processItem_eq_meta_keep (ctx : PageCtx) (st : SegState) (n : Nat)
    (it : Item) (h1 : it.str ≠ []) (h2 : classifyMeta ctx it = true)
    (h3 : jsTrim st.fullText = []) :
    processItem ctx st n it =
      { st with allSentences :=
          st.allSentences ++ [⟨jsTrim it.str, true, [n]⟩] } := by
  simp [processItem, h1, h2, h3]

/-- Branch equation: metadata fragment flushing the accumulator. -/
lemma processItem_eq_meta_flush (ctx : PageCtx) (st : SegState) (n : Nat)
    (it : Item) (h1 : it.str ≠ []) (h2 : classifyMeta ctx it = true)
    (h3 : jsTrim st.fullText ≠ []) :
    processItem ctx st n it =
      ⟨(st.allSentences ++
          accSentences st.fullText st.currentItemIndices) ++
        [⟨jsTrim it.str, true, [n]⟩], [], []⟩ := by
  simp [processItem, h1, h2, h3]

/-- Branch equation: body fragment without terminal punctuation. -/
lemma processItem_eq_body_noterm (ctx : PageCtx) (st : SegState) (n : Nat)
    (it : Item) (h1 : it.str ≠ []) (h2 : classifyMeta ctx it = false)
    (h3 : it.str.any isTerm = false) :
    processItem ctx st n it =
      ⟨st.allSentences, st.fullText ++ it.str ++ [' '],
        st.currentItemIndices ++ [n]⟩ := by
  simp [processItem, h1, h2, h3]

/-- Branch equation: body fragment with terminal punctuation, flush
triggered. -/
lemma processItem_eq_body_flush (ctx : PageCtx) (st : SegState) (n : Nat)
    (it : Item) (h1 : it.str ≠ []) (h2 : classifyMeta ctx it = false)
    (h3 : it.str.any isTerm = true)
    (h4 : 1 < (jsMatchPieces (st.fullText ++ it.str ++ [' '])).length ∨
      ((jsMatchPieces (st.fullText ++ it.str ++ [' '])).length = 1 ∧
        endsTerm (jsTrim (st.fullText ++ it.str ++ [' '])) = true)) :
    processItem ctx st n it =
      ⟨st.allSentences ++
        [⟨jsTrim (st.fullText ++ it.str ++ [' ']), false,
          st.currentItemIndices ++ [n]⟩], [], []⟩ := by
  have hcond : (1 < (jsMatchPieces (st.fullText ++ it.str ++ [' '])).length ||
      ((jsMatchPieces (st.fullText ++ it.str ++ [' '])).length = 1 &&
        endsTerm (jsTrim (st.fullText ++ it.str ++ [' '])))) = true := by
    simp only [Bool.or_eq_true, Bool.and_eq_true, decide_eq_true_eq]
    rcases h4 with h4 | ⟨h4, h5⟩
    · exact Or.inl h4
    · exact Or.inr ⟨h4, h5⟩
  simp only [processItem, if_neg h1, h2, Bool.false_eq_true, if_false,
    h3, if_true, hcond]

/-- Branch equation: body fragment with terminal punctuation, but the flush
condition fails. -/
lemma processItem_eq_body_keep (ctx : PageCtx) (st : SegState) (n : Nat)
    (it : Item) (h1 : it.str ≠ []) (h2 : classifyMeta ctx it = false)
    (h3 : it.str.any isTerm = true)
    (h4 : ¬(1 < (jsMatchPieces (st.fullText ++ it.str ++ [' '])).length ∨
      ((jsMatchPieces (st.fullText ++ it.str ++ [' '])).length = 1 ∧
        endsTerm (jsTrim (st.fullText ++ it.str ++ [' '])) = true))) :
    processItem ctx st n it =
      ⟨st.allSentences, st.fullText ++ it.str ++ [' '],
        st.currentItemIndices ++ [n]⟩ := by
  have hcond : ¬((1 < (jsMatchPieces (st.fullText ++ it.str ++ [' '])).length ||
      ((jsMatchPieces (st.fullText ++ it.str ++ [' '])).length = 1 &&
        endsTerm (jsTrim (st.fullText ++ it.str ++ [' '])))) = true) := by
    simp only [Bool.or_eq_true, Bool.and_eq_true, decide_eq_true_eq]
    intro hc
    rcases hc with hc | ⟨hc1, hc2⟩
    · exact h4 (Or.inl hc)
    · exact h4 (Or.inr ⟨hc1, hc2⟩)
  simp only [processItem, if_neg h1, h2, Bool.false_eq_true, if_false,
    h3, if_true, if_neg hcond]

/-- Appending new body text and the fresh index `n` preserves the invariant,
provided the new accumulator keeps the `accOk` shape. -/
lemma segInv_body_append {n : Nat} {st : SegState} (h : SegInv n st)
    (app : Str) (hshape : accOk (st.fullText ++ app) = true) :
    SegInv (n + 1)
      ⟨st.allSentences, st.fullText ++ app,
        st.currentItemIndices ++ [n]⟩ where
  good s hs := ⟨(h.good s hs).1, (h.good s hs).2.1,
    fun x hx => by have := (h.good s hs).2.2 x hx; omega⟩
  disj := h.disj
  accDisj s hs x hx := by
    simp only [List.mem_append, List.mem_singleton]
    rintro (hc | rfl)
    · exact h.accDisj s hs x hx hc
    · have := (h.good s hs).2.2 x hx
      omega
  accSorted := List.pairwise_append.mpr
    ⟨h.accSorted, List.pairwise_singleton _ _,
      fun a ha b hb => by
        simp only [List.mem_singleton] at hb
        subst hb
        exact h.accLt a ha⟩
  accLt x hx := by
    simp only [List.mem_append, List.mem_singleton] at hx
    rcases hx with hx | rfl
    · have := h.accLt x hx; omega
    · omega
  accEmpty hemp := absurd hemp (by simp)
  accShape := hshape

/-- Flushing the accumulator as one body sentence (the body-branch flush)
preserves the invariant. -/
lemma segInv_body_flush {n : Nat} {st : SegState} (h : SegInv n st)
    (text2 : Str) :
    SegInv (n + 1)
      ⟨st.allSentences ++
        [⟨text2, false, st.currentItemIndices ++ [n]⟩], [], []⟩ where
  good s hs := by
    rcases List.mem_append.mp hs with hs | hs
    · exact ⟨(h.good s hs).1, (h.good s hs).2.1,
        fun x hx => by have := (h.good s hs).2.2 x hx; omega⟩
    · simp only [List.mem_singleton] at hs
      subst hs
      refine ⟨by simp, ?_, ?_⟩
      · exact List.pairwise_append.mpr
          ⟨h.accSorted, List.pairwise_singleton _ _,
            fun a ha b hb => by
              simp only [List.mem_singleton] at hb
              subst hb
              exact h.accLt a ha⟩
      · intro x hx
        simp only [List.mem_append, List.mem_singleton] at hx
        rcases hx with hx | rfl
        · have := h.accLt x hx; omega
        · omega
  disj := List.pairwise_append.mpr
    ⟨h.disj, List.pairwise_singleton _ _,
      fun a ha b hb => by
        simp only [List.mem_singleton] at hb
        subst hb
        intro x hx
        simp only [Sentence.mk.injEq]
        simp only [List.mem_append, List.mem_singleton]
        rintro (hc | rfl)
        · exact h.accDisj a ha x hx hc
        · have := (h.good a ha).2.2 x hx
          omega⟩
  accDisj s hs x hx := by simp
  accSorted := List.Pairwise.nil
  accLt x hx := absurd hx (List.not_mem_nil x)
  accEmpty _ := rfl
  accShape := rfl

/-- Pushing a fresh single-index metadata sentence after the (possibly
empty) accumulator flush preserves the invariant. -/
lemma segInv_meta_keep {n : Nat} {st : SegState} (h : SegInv n st)
    (text2 : Str) :
    SegInv (n + 1)
      { st with allSentences :=
          st.allSentences ++ [⟨text2, true, [n]⟩] } where
  good s hs := by
    rcases List.mem_append.mp hs with hs | hs
    · exact ⟨(h.good s hs).1, (h.good s hs).2.1,
        fun x hx => by have := (h.good s hs).2.2 x hx; omega⟩
    · simp only [List.mem_singleton] at hs
      subst hs
      exact ⟨by simp, List.pairwise_singleton _ _,
        fun x hx => by simp only [List.mem_singleton] at hx; omega⟩
  disj := List.pairwise_append.mpr
    ⟨h.disj, List.pairwise_singleton _ _,
      fun a ha b hb => by
        simp only [List.mem_singleton] at hb
        subst hb
        intro x hx
        simp only [List.mem_singleton]
        have := (h.good a ha).2.2 x hx
        omega⟩
  accDisj s hs x hx := by
    rcases List.mem_append.mp hs with hs | hs
    · exact h.accDisj s hs x hx
    · simp only [List.mem_singleton] at hs
      subst hs
      simp only [List.mem_singleton] at hx
      intro hc
      rw [hx] at hc
      have := h.accLt _ hc
      omega
  accSorted := h.accSorted
  accLt x hx := by have := h.accLt x hx; omega
  accEmpty := h.accEmpty
  accShape := h.accShape

/-- The metadata-branch flush (accumulator pieces, then the metadata
sentence) preserves the invariant. -/
lemma segInv_meta_flush {n : Nat} {st : SegState} (h : SegInv n st)
    (text2 : Str) :
    SegInv (n + 1)
      ⟨(st.allSentences ++
          accSentences st.fullText st.currentItemIndices) ++
        [⟨text2, true, [n]⟩], [], []⟩ := by
  have hcur_lt := h.accLt
  rcases accSentences_of_accOk st.fullText st.currentItemIndices h.accShape
    with hacc | ⟨hftne, t, htne, hacc⟩
  case inl =>
    rw [hacc, List.append_nil]
    exact {
      good := fun s hs => by
        rcases List.mem_append.mp hs with hs | hs
        · exact ⟨(h.good s hs).1, (h.good s hs).2.1,
            fun x hx => by have := (h.good s hs).2.2 x hx; omega⟩
        · simp only [List.mem_singleton] at hs
          subst hs
          exact ⟨by simp, List.pairwise_singleton _ _,
            fun x hx => by simp only [List.mem_singleton] at hx; omega⟩
      disj := List.pairwise_append.mpr
        ⟨h.disj, List.pairwise_singleton _ _,
          fun a ha b hb => by
            simp only [List.mem_singleton] at hb
            subst hb
            intro x hx
            simp only [List.mem_singleton]
            have := (h.good a ha).2.2 x hx
            omega⟩
      accDisj := fun s hs x hx => by simp
      accSorted := List.Pairwise.nil
      accLt := fun x hx => absurd hx (List.not_mem_nil x)
      accEmpty := fun _ => rfl
      accShape := rfl }
  case inr =>
    have hcur : st.currentItemIndices ≠ [] :=
      fun hc => hftne (h.accEmpty hc)
    rw [hacc]
    exact {
      good := fun s hs => by
        rcases List.mem_append.mp hs with hs | hs
        · rcases List.mem_append.mp hs with hs | hs
          · exact ⟨(h.good s hs).1, (h.good s hs).2.1,
              fun x hx => by have := (h.good s hs).2.2 x hx; omega⟩
          · simp only [List.mem_singleton] at hs
            subst hs
            exact ⟨hcur, h.accSorted,
              fun x hx => by have := h.accLt x hx; omega⟩
        · simp only [List.mem_singleton] at hs
          subst hs
          exact ⟨by simp, List.pairwise_singleton _ _,
            fun x hx => by simp only [List.mem_singleton] at hx; omega⟩
      disj := by
        refine List.pairwise_append.mpr
          ⟨List.pairwise_append.mpr ⟨h.disj, List.pairwise_singleton _ _,
            fun a ha b hb => ?_⟩, List.pairwise_singleton _ _,
            fun a ha b hb => ?_⟩
        · simp only [List.mem_singleton] at hb
          subst hb
          intro x hx
          exact h.accDisj a ha x hx
        · simp only [List.mem_singleton] at hb
          subst hb
          intro x hx
          simp only [List.mem_singleton]
          rcases List.mem_append.mp ha with ha | ha
          · have := (h.good a ha).2.2 x hx
            omega
          · simp only [List.mem_singleton] at ha
            subst ha
            have := h.accLt x hx
            omega
      accDisj := fun s hs x hx => by simp
      accSorted := List.Pairwise.nil
      accLt := fun x hx => absurd hx (List.not_mem_nil x)
      accEmpty := fun _ => rfl
      accShape := rfl }

/-- One loop iteration preserves the invariant. -/
lemma segInv_processItem (ctx : PageCtx) {n : Nat} {st : SegState}
    (it : Item) (h : SegInv n st) :
    SegInv (n + 1) (processItem ctx st n it) := by
  by_cases h1 : it.str = []
  · rw [processItem_eq_empty ctx st n it h1]
    exact h.mono (by omega)
  by_cases h2 : classifyMeta ctx it = true
  · by_cases h3 : jsTrim st.fullText = []
    · rw [processItem_eq_meta_keep ctx st n it h1 h2 h3]
      exact segInv_meta_keep h _
    · rw [processItem_eq_meta_flush ctx st n it h1 h2 h3]
      exact segInv_meta_flush h _
  · have h2f : classifyMeta ctx it = false := by
      cases hq : classifyMeta ctx it
      · rfl
      · exact absurd hq h2
    by_cases h3 : it.str.any isTerm = true
    · by_cases h4 : 1 < (jsMatchPieces (st.fullText ++ it.str ++ [' '])).length ∨
        ((jsMatchPieces (st.fullText ++ it.str ++ [' '])).length = 1 ∧
          endsTerm (jsTrim (st.fullText ++ it.str ++ [' '])) = true)
      · rw [processItem_eq_body_flush ctx st n it h1 h2f h3 h4]
        exact segInv_body_flush h _
      · rw [processItem_eq_body_keep ctx st n it h1 h2f h3 h4,
          List.append_assoc]
        rw [List.append_assoc] at h4
        refine segInv_body_append h (it.str ++ [' ']) ?_
        cases hsh : accOk (st.fullText ++ (it.str ++ [' ']))
        · exfalso
          rcases flushCond_of_not_accOk _ hsh with hc | hc
          · exact h4 (Or.inl hc)
          · exact h4 (Or.inr hc)
        · rfl
    · have h3f : it.str.any isTerm = false := by
        cases hq : it.str.any isTerm
        · rfl
        · exact absurd hq h3
      rw [processItem_eq_body_noterm ctx st n it h1 h2f h3f,
        List.append_assoc]
      have happ : ((it.str ++ [' ']).all fun c => ! isTerm c) = true := by
        simp only [List.all_append, Bool.and_eq_true]
        constructor
        · simp only [List.all_eq_true, Bool.not_eq_true']
          intro x hx
          have := (List.any_eq_false.mp h3f) x hx
          exact Bool.eq_false_iff.mpr this
        · decide
      exact segInv_body_append h (it.str ++ [' '])
        (accOk_append _ _ h.accShape happ)

/-- The loop preserves the invariant over any remaining item list. -/
lemma segInv_segLoop (ctx : PageCtx) :
    ∀ (rest : List Item) (n : Nat) (st : SegState),
      SegInv n st → SegInv (n + rest.length) (segLoop ctx rest n st) := by
  intro rest
  induction rest with
  | nil => intro n st h; simpa using h
  | cons it rest ih =>
    intro n st h
    have h3 := ih (n + 1) _ (segInv_processItem ctx it h)
    have heq : n + (it :: rest).length = (n + 1) + rest.length := by
      simp
      omega
    rw [show segLoop ctx (it :: rest) n st =
      segLoop ctx rest (n + 1) (processItem ctx st n it) from rfl, heq]
    exact h3

/-- The end-of-stream flush keeps the sentence-level properties. -/
lemma finishSeg_props (n : Nat) (st : SegState) (h : SegInv n st) :
    (∀ s ∈ finishSeg st,
      s.itemIndices ≠ [] ∧ s.itemIndices.Pairwise (· < ·)) ∧
    (finishSeg st).Pairwise disjIdx := by
  unfold finishSeg
  by_cases hft : jsTrim st.fullText = []
  · rw [if_pos hft]
    exact ⟨fun s hs => ⟨(h.good s hs).1, (h.good s hs).2.1⟩, h.disj⟩
  · rw [if_neg hft]
    rcases accSentences_of_accOk st.fullText st.currentItemIndices h.accShape
      with hacc | ⟨hftne, t, htne, hacc⟩
    · rw [hacc, List.append_nil]
      exact ⟨fun s hs => ⟨(h.good s hs).1, (h.good s hs).2.1⟩, h.disj⟩
    · have hcur : st.currentItemIndices ≠ [] :=
        fun hc => hftne (h.accEmpty hc)
      rw [hacc]
      constructor
      · intro s hs
        rcases List.mem_append.mp hs with hs | hs
        · exact ⟨(h.good s hs).1, (h.good s hs).2.1⟩
        · simp only [List.mem_singleton] at hs
          subst hs
          exact ⟨hcur, h.accSorted⟩
      · refine List.pairwise_append.mpr
          ⟨h.disj, List.pairwise_singleton _ _, fun a ha b hb => ?_⟩
        simp only [List.mem_singleton] at hb
        subst hb
        intro x hx
        exact h.accDisj a ha x hx

/-- C1: every sentence produced by the Segmenter has a non-empty, strictly
increasing source-fragment index list, and the index lists are pairwise
disjoint across sentences: no fragment index appears in two different
sentences. -/
theorem segmenter_fragment_indices (ph : ℚ) (items : List Item) :
    (∀ s ∈ onPageLoadSuccess ph items,
      s.itemIndices ≠ [] ∧ s.itemIndices.Pairwise (· < ·)) ∧
    (onPageLoadSuccess ph items).Pairwise
      (fun a b => ∀ x ∈ a.itemIndices, x ∉ b.itemIndices) := by
  unfold onPageLoadSuccess
  by_cases hi : items = []
  · rw [if_pos hi]
    exact ⟨fun s hs => absurd hs (List.not_mem_nil s), List.Pairwise.nil⟩
  · rw [if_neg hi]
    have h0 : SegInv 0 ⟨[], [], []⟩ :=
      { good := fun s hs => absurd hs (List.not_mem_nil s)
        disj := List.Pairwise.nil
        accDisj := fun s hs => absurd hs (List.not_mem_nil s)
        accSorted := List.Pairwise.nil
        accLt := fun x hx => absurd hx (List.not_mem_nil x)
        accEmpty := fun _ => rfl
        accShape := rfl }
    exact finishSeg_props _ _ (segInv_segLoop (mkPageCtx ph items) items 0 _ h0)

/-- Witness for C1: the middle sentence of the example page has a non-empty
strictly increasing index list. -/
theorem segmenter_fragment_indices_witness :
    ((⟨"The cat sat.".data, false, [1]⟩ : Sentence).itemIndices ≠ [] ∧
      (⟨"The cat sat.".data, false, [1]⟩ :
        Sentence).itemIndices.Pairwise (· < ·)) :=
  (segmenter_fragment_indices 100 chapterItems).1 _ (by decide)

/-! ## Index provenance: skipped fragments are never referenced -/

/-- One loop iteration only introduces the index of the item it consumed,
and only when that item's text is non-empty. -/
lemma processItem_origin (ctx : PageCtx) (st : SegState) (n : Nat)
    (it : Item) (Q : Nat → Prop)
    (hs : ∀ s ∈ st.allSentences, ∀ x ∈ s.itemIndices, Q x)
    (hc : ∀ x ∈ st.currentItemIndices, Q x)
    (hn : it.str ≠ [] → Q n) :
    (∀ s ∈ (processItem ctx st n it).allSentences,
      ∀ x ∈ s.itemIndices, Q x) ∧
    (∀ x ∈ (processItem ctx st n it).currentItemIndices, Q x) := by
  by_cases h1 : it.str = []
  · rw [processItem_eq_empty ctx st n it h1]
    exact ⟨hs, hc⟩
  have hQn := hn h1
  have hcur : ∀ x ∈ st.currentItemIndices ++ [n], Q x := by
    intro x hx
    rcases List.mem_append.mp hx with hx | hx
    · exact hc x hx
    · simp only [List.mem_singleton] at hx
      rw [hx]
      exact hQn
  by_cases h2 : classifyMeta ctx it = true
  · by_cases h3 : jsTrim st.fullText = []
    · rw [processItem_eq_meta_keep ctx st n it h1 h2 h3]
      refine ⟨?_, hc⟩
      intro s hsm x hx
      rcases List.mem_append.mp hsm with hsm | hsm
      · exact hs s hsm x hx
      · simp only [List.mem_singleton] at hsm
        subst hsm
        simp only [List.mem_singleton] at hx
        rw [hx]
        exact hQn
    · rw [processItem_eq_meta_flush ctx st n it h1 h2 h3]
      refine ⟨?_, by simp⟩
      intro s hsm x hx
      rcases List.mem_append.mp hsm with hsm | hsm
      · rcases List.mem_append.mp hsm with hsm | hsm
        · exact hs s hsm x hx
        · rw [(mem_accSentences hsm).1] at hx
          exact hc x hx
      · simp only [List.mem_singleton] at hsm
        subst hsm
        simp only [List.mem_singleton] at hx
        rw [hx]
        exact hQn
  · have h2f : classifyMeta ctx it = false := by
      cases hq : classifyMeta ctx it
      · rfl
      · exact absurd hq h2
    by_cases h3 : it.str.any isTerm = true
    · by_cases h4 : 1 < (jsMatchPieces (st.fullText ++ it.str ++ [' '])).length ∨
        ((jsMatchPieces (st.fullText ++ it.str ++ [' '])).length = 1 ∧
          endsTerm (jsTrim (st.fullText ++ it.str ++ [' '])) = true)
      · rw [processItem_eq_body_flush ctx st n it h1 h2f h3 h4]
        refine ⟨?_, by simp⟩
        intro s hsm x hx
        rcases List.mem_append.mp hsm with hsm | hsm
        · exact hs s hsm x hx
        · simp only [List.mem_singleton] at hsm
          subst hsm
          exact hcur x hx
      · rw [processItem_eq_body_keep ctx st n it h1 h2f h3 h4]
        exact ⟨hs, hcur⟩
    · have h3f : it.str.any isTerm = false := by
        cases hq : it.str.any isTerm
        · rfl
        · exact absurd hq h3
      rw [processItem_eq_body_noterm ctx st n it h1 h2f h3f]
      exact ⟨hs, hcur⟩

/-- Index provenance over the whole loop. -/
lemma segLoop_origin (ctx : PageCtx) (Q : Nat → Prop) :
    ∀ (rest : List Item) (n : Nat) (st : SegState),
      (∀ s ∈ st.allSentences, ∀ x ∈ s.itemIndices, Q x) →
      (∀ x ∈ st.currentItemIndices, Q x) →
      (∀ k (hk : k < rest.length), (rest.get ⟨k, hk⟩).str ≠ [] → Q (n + k)) →
      (∀ s ∈ (segLoop ctx rest n st).allSentences,
        ∀ x ∈ s.itemIndices, Q x) ∧
      (∀ x ∈ (segLoop ctx rest n st).currentItemIndices, Q x) := by
  intro rest
  induction rest with
  | nil => intro n st hs hc _; exact ⟨hs, hc⟩
  | cons it rest ih =>
    intro n st hs hc hk
    have h0 : it.str ≠ [] → Q n := by
      intro hne
      have := hk 0 (by simp) hne
      simpa using this
    obtain ⟨hs2, hc2⟩ := processItem_origin ctx st n it Q hs hc h0
    have hk2 : ∀ k (hkk : k < rest.length),
        (rest.get ⟨k, hkk⟩).str ≠ [] → Q ((n + 1) + k) := by
      intro k hkk hne
      have hb : k + 1 < (it :: rest).length := by
        simp only [List.length_cons]
        omega
      have := hk (k + 1) hb hne
      rw [show (n + 1) + k = n + (k + 1) by omega]
      exact this
    exact ih (n + 1) _ hs2 hc2 hk2

/-- A fragment with empty text contributes its index to no sentence. -/
lemma onPage_empty_skip (ph : ℚ) (items : List Item) (idx : Nat)
    (hidx : idx < items.length) (hempty : (items.get ⟨idx, hidx⟩).str = []) :
    ∀ s ∈ onPageLoadSuccess ph items, idx ∉ s.itemIndices := by
  intro s hsm hmem
  unfold onPageLoadSuccess at hsm
  by_cases hi : items = []
  · rw [if_pos hi] at hsm
    exact absurd hsm (List.not_mem_nil s)
  rw [if_neg hi] at hsm
  have horigin := segLoop_origin (mkPageCtx ph items) (fun x => x ≠ idx)
    items 0 ⟨[], [], []⟩
    (fun s hs => absurd hs (List.not_mem_nil s))
    (fun x hx => absurd hx (List.not_mem_nil x))
    (by
      intro k hk hne heq
      have hkidx : k = idx := by omega
      subst hkidx
      exact hne hempty)
  obtain ⟨hs2, hc2⟩ := horigin
  unfold finishSeg at hsm
  by_cases hft : jsTrim (segLoop (mkPageCtx ph items) items 0
      ⟨[], [], []⟩).fullText = []
  · rw [if_pos hft] at hsm
    exact hs2 s hsm idx hmem rfl
  · rw [if_neg hft] at hsm
    rcases List.mem_append.mp hsm with hsm | hsm
    · exact hs2 s hsm idx hmem rfl
    · rw [(mem_accSentences hsm).1] at hmem
      exact hc2 idx hmem rfl

/-! ## Theorems about the layout token classifier -/

/-- C5 counterexample: on a page whose sorted-heights middle element is 0,
the claim's condition "height exceeds 1.3 x the median fragment height"
holds for the height-5 fragment (5 > 1.3 x 0, and neither the serial nor
the header/footer condition applies), yet the classifier marks it body —
the code substitutes 12 for a zero median, so 5 < 15.6.  The fragment ends
up inside a non-metadata sentence. -/
theorem classifier_zero_median_cex :
    specMedianHeight zeroHeightItems = 0 ∧
    specMedianHeight zeroHeightItems * (13 / 10) <
      itemHeight ⟨"Hello world".data, 5, 50⟩ ∧
    serialPattern (jsTrim ("Hello world".data)) = false ∧
    ¬((50 : ℚ) < 100 * (1 / 10)) ∧ ¬((100 : ℚ) * (9 / 10) < 50) ∧
    classifyMeta (mkPageCtx 100 zeroHeightItems)
      ⟨"Hello world".data, 5, 50⟩ = false ∧
    onPageLoadSuccess 100 zeroHeightItems =
      [⟨"zz zz Hello world".data, false, [0, 1, 2]⟩] := by
  decide

/-- C5 amended: a fragment is metadata exactly when its height exceeds
1.3 x the body baseline — the middle element (position `⌊n/2⌋`) of the
ascending-sorted heights, with 12 substituted when that element is 0 — or
its trimmed text matches the serial-marker pattern, or its baseline Y lies
in the top or bottom 10 percent of the page height; and a fragment with
empty text is skipped entirely: its index appears in no sentence. -/
theorem classifier_conditions_and_empty_skip (ph : ℚ) (items : List Item)
    (it : Item) :
    (classifyMeta (mkPageCtx ph items) it = true ↔
      ((if specMedianHeight items = 0 then 12 else specMedianHeight items) *
          (13 / 10) < itemHeight it ∨
        serialPattern (jsTrim it.str) = true ∨
        it.transform5 < ph * (1 / 10) ∨ ph * (9 / 10) < it.transform5)) ∧
    (∀ idx (hidx : idx < items.length),
      (items.get ⟨idx, hidx⟩).str = [] →
      ∀ s ∈ onPageLoadSuccess ph items, idx ∉ s.itemIndices) := by
  constructor
  · simp [classifyMeta, isHeading, isSerial, isHeaderOrFooter, mkPageCtx,
      specMedianHeight]
    tauto
  · intro idx hidx hempty
    exact onPage_empty_skip ph items idx hidx hempty

/-- Witness for C5 (amended): the index of an empty-text fragment appears in
no produced sentence of a concrete page. -/
theorem classifier_conditions_and_empty_skip_witness :
    (0 : Nat) ∉ (Sentence.mk ("Hey.".data) false [1]).itemIndices :=
  (classifier_conditions_and_empty_skip 100 emptyStrItems
    ⟨[], 10, 50⟩).2 0 (by decide) (by decide) _ (by decide)

end Zylo



